import Mathlib

/-!
Verification of the install orchestration pipeline and the archive security
auditor of the `rua` package builder, against a shallow embedding of
`src/action_install.rs` and `src/tar_check.rs`.

Machine integers of the source (the `u32` permission mode, the `i32` depth)
are modelled as `Nat` and `Int`; the code only compares and negates them, so
no wrap-around is reachable. Fallible operations (`expect`, `process::exit`)
are modelled with `Option`/`Except`. Interactive terminal reads are modelled
as a list of already-lowercased input lines, matching
`terminal_util::read_line_lowercase`.
-/

namespace Rua

/-- Rust `str::starts_with` on the character sequence of the strings.
(`String.startsWith` of the Lean core library is extensionally the same
function but is defined by well-founded byte-position recursion, which the
kernel cannot evaluate; the model therefore uses the character list
directly.) -/
def strStartsWith (s w : String) : Bool :=
  w.data.isPrefixOf s.data

/-- Rust `str::ends_with` on the character sequence of the strings. -/
def strEndsWith (s w : String) : Bool :=
  w.data.isSuffixOf s.data

/-! ### Archive auditor: model of src/tar_check.rs -/

/-- One archive member as read by `tar_check_archive`: the logical path from
the tar header, the permission-mode bitmask, and the member content (only
read for the install script). -/
structure Entry where
  path : String
  mode : Nat
  content : String
deriving DecidableEq

/-- The transient classification state `tar_check_archive` accumulates while
walking the archive members. -/
structure ScanState where
  install_file : String
  all_files : List String
  executable_files : List String
  suid_files : List String
deriving DecidableEq

/-- The local `is_normal` binding of `tar_check_archive`:
`!path.ends_with('/') && !path.starts_with('.')`. -/
def entryNormal (e : Entry) : Bool :=
  !(strEndsWith e.path ("/")) && !(strStartsWith e.path ("."))

/-- One iteration of the member loop of `tar_check_archive`. The source
performs four independent conditional pushes on the same state: the path is
appended to `all_files` when `is_normal`, to `executable_files` when
`is_normal && (mode & 0o111 > 0)`, to `suid_files` when `mode > 0o777`, and
the content of a member whose path equals `.INSTALL` is appended (via
`read_to_string`) to `install_file`. -/
def scanEntry (st : ScanState) (e : Entry) : ScanState :=
  { install_file := st.install_file ++ (if e.path == (".INSTALL") then e.content else (""))
    all_files := st.all_files ++ (if entryNormal e then [e.path] else [])
    executable_files :=
      st.executable_files ++
        (if entryNormal e && decide (0 < e.mode &&& 0o111) then [e.path] else [])
    suid_files := st.suid_files ++ (if decide (0o777 < e.mode) then [e.path] else []) }

/-- The member loop of `tar_check_archive`, threading the state left to
right over the archive entries. -/
def scanEntries (st : ScanState) : List Entry → ScanState
  | [] => st
  | e :: es => scanEntries (scanEntry st e) es

/-- The classification pass of `tar_check_archive`, starting from the empty
state (`install_file` empty, all three lists empty). -/
def tar_check_archive (entries : List Entry) : ScanState :=
  scanEntries ⟨"", [], [], []⟩ entries

/-- The `has_install` binding of `tar_check_archive`:
`!install_file.is_empty()`. -/
def hasInstall (st : ScanState) : Bool :=
  !st.install_file.isEmpty

/-- Whether the interactive menu offers the view-install-script option: the
source prints the `[I]=show install file` choice exactly when
`has_install`. -/
def offersInstallOption (st : ScanState) : Bool :=
  hasInstall st

/-- Outcome of feeding one input line to the interactive review loop of
`tar_check_archive`. -/
inductive MenuStep where
  /-- The loop printed these lines and prompts again. -/
  | again (printed : List String) : MenuStep
  /-- The operator accepted: the audit of this archive returns. -/
  | accepted : MenuStep
  /-- The operator aborted: the whole process exits with a non-zero
  status. -/
  | aborted : MenuStep
deriving DecidableEq

/-- One round of the interactive review loop of `tar_check_archive`, given
one lowercased operator input line. Branch order and guards follow the
source: `s` guarded by non-empty `suid_files`, `e`, `l`, `i` guarded by
`has_install`, `t` (spawns an inspection shell, printing no member data),
`o` breaks the loop, `q` exits the process, anything else re-prompts. -/
def menuStep (st : ScanState) (input : String) : MenuStep :=
  if input == ("s") && !st.suid_files.isEmpty then .again st.suid_files
  else if input == ("e") then .again st.executable_files
  else if input == ("l") then .again st.all_files
  else if input == ("i") && hasInstall st then .again [st.install_file]
  else if input == ("t") then .again []
  else if input == ("o") then .accepted
  else if input == ("q") then .aborted
  else .again []

/-- Model of `tar_check`: dispatch on the file-name suffix. For the two
supported suffixes the source constructs the archive reader, runs the
interactive walk (`tar_check_archive`, modelled above) and returns `Ok(())`;
any other suffix returns the unsupported-format error string. -/
def tar_check (tar_str : String) : Except String Unit :=
  if strEndsWith tar_str (".tar.xz") then .ok ()
  else if strEndsWith tar_str (".tar") then .ok ()
  else
    .error ("Archive " ++ tar_str ++
      " cannot be analyzed. Only .tar.xz and .tar files are supported")

/-- Model of `tar_check_unwrap`: on an `Err` from `tar_check` the process
prints the message and exits with status 1, modelled as `none`. -/
def tar_check_unwrap (tar_str : String) : Option Unit :=
  (tar_check tar_str).toOption

/-! ### Artifact gate: model of `check_tars_and_move` -/

/-- The build-directory files kept by the whitelist filter of
`check_tars_and_move`: a file is kept iff some whitelist entry is a string
prefix of its name (`file_name.starts_with(prefix)` for some whitelist
element). -/
def keptFiles (buildFiles whitelist : List String) : List String :=
  buildFiles.filter (fun f => whitelist.any (fun w => strStartsWith f w))

/-- The files `check_tars_and_move` hands to the archive auditor
(`tar_check_unwrap`): exactly the whitelist-kept files; every file actually
audited before a potential mid-loop process exit is drawn from this list. -/
def auditedFiles (buildFiles whitelist : List String) : List String :=
  keptFiles buildFiles whitelist

/-- Model of `check_tars_and_move` with the per-file audit abstracted as a
predicate (`true` = `tar_check_unwrap` returned, `false` = it exited the
process). When every kept file passes its audit, the checked-output
directory is cleared, recreated, and receives exactly the kept files (the
returned list); a failing audit exits the process before any file is moved,
modelled as `none`. -/
def check_tars_and_move (audit : String → Bool) (buildFiles whitelist : List String) :
    Option (List String) :=
  let kept := keptFiles buildFiles whitelist
  if kept.all audit then some kept else none

/-- The audit predicate induced by `tar_check_unwrap` itself. -/
def tarCheckOk (f : String) : Bool :=
  (tar_check_unwrap f).isSome

/-! ### Install orchestrator: model of `install_all` in src/action_install.rs

The `IndexMap`s of the source are modelled as association lists in insertion
order. A build-plan element is the tuple `(pkgbase, depth, split)` the
source constructs. -/

/-- A `(pkgbase, depth, split)` triple of the `install_all` pipeline. -/
abbrev PkgEntry := String × Int × String

/-- The archive whitelist built at the top of `install_all`: one entry
`split-version` per element of `split_to_version`, in map order. -/
def archiveWhitelist (split_to_version : List (String × String)) : List String :=
  split_to_version.map (fun p => p.1 ++ ("-") ++ p.2)

/-- Lookup in the `split_to_depth` map (first entry with the given key). -/
def lookupDepth (m : List (String × Int)) (k : String) : Option Int :=
  (m.find? (fun p => p.1 == k)).map (fun p => p.2)

/-- The list of `(pkgbase, depth, split)` triples `install_all` builds from
`split_to_pkgbase`, looking each split target up in `split_to_depth`. The
`.expect` panic on a missing depth is modelled as `none`. -/
def packagesOf (split_to_depth : List (String × Int)) :
    List (String × String) → Option (List PkgEntry)
  | [] => some []
  | (split, pkgbase) :: rest =>
    match lookupDepth split_to_depth split, packagesOf split_to_depth rest with
    | some d, some tail => some ((pkgbase, d, split) :: tail)
    | _, _ => none

/-- The comparison `sorted_by_key(|(_pkgbase, depth, _split)| -depth)` uses:
ascending by negated depth, i.e. descending by depth. -/
def depthDescending (a b : PkgEntry) : Bool :=
  decide ((-a.2.1) ≤ (-b.2.1))

/-- The `unique_by(pkgbase)` step: keep only the first occurrence of each
pkgbase, tracking the set of pkgbases already seen (the source uses a
hash set inside itertools `unique_by`). -/
def uniqueByPkgbase : List String → List PkgEntry → List PkgEntry
  | _, [] => []
  | seen, x :: xs =>
    if seen.contains x.1 then uniqueByPkgbase seen xs
    else x :: uniqueByPkgbase (x.1 :: seen) xs

/-- The deduplicated, depth-sorted build plan of `install_all`: triples from
`packagesOf`, sorted descending by depth with the stable merge sort, then
deduplicated keeping the first occurrence of each pkgbase. -/
def buildPlan (split_to_depth : List (String × Int))
    (split_to_pkgbase : List (String × String)) : Option (List PkgEntry) :=
  (packagesOf split_to_depth split_to_pkgbase).map (fun packages =>
    uniqueByPkgbase [] (packages.mergeSort depthDescending))

/-- The `group_by(depth)` step of `install_all`: itertools groups maximal
runs of consecutive elements sharing a depth into one tier, keyed by that
depth. -/
def groupByDepth : List PkgEntry → List (Int × List PkgEntry)
  | [] => []
  | x :: xs =>
    match groupByDepth xs with
    | [] => [(x.2.1, [x])]
    | (d, tier) :: rest =>
      if x.2.1 = d then (d, x :: tier) :: rest
      else (x.2.1, [x]) :: (d, tier) :: rest

/-- Observable steps of one `install_all` run, tagged with the depth of the
tier being processed. -/
inductive Event where
  /-- `wrapped::build_directory` is invoked for this pkgbase. -/
  | build (pkgbase : String) (tierDepth : Int) : Event
  /-- `check_tars_and_move` is invoked for this pkgbase with this archive
  whitelist. -/
  | audit (pkgbase : String) (tierDepth : Int) (whitelist : List String) : Event
  /-- `pacman::ensure_aur_packages_installed` is invoked for the collected
  artifacts of the tier, with this dependency-install flag. -/
  | install (tierDepth : Int) (asdeps : Bool) : Event
deriving DecidableEq

/-- The events one tier contributes, in source order: all builds, then all
audits, then the single privileged install call with flag
`asdeps || depth > 0`. -/
def tierEvents (whitelist : List String) (asdeps : Bool) (tier : Int × List PkgEntry) :
    List Event :=
  tier.2.map (fun p => Event.build p.1 tier.1)
    ++ tier.2.map (fun p => Event.audit p.1 tier.1 whitelist)
    ++ [Event.install tier.1 (asdeps || decide (0 < tier.1))]

/-- Model of `install_all`: compute the global archive whitelist, the
deduplicated descending build plan, group it into depth tiers, and emit the
per-tier build, audit and install steps. `none` models the `.expect` panic
on a split with no recorded depth. -/
def install_all (split_to_depth : List (String × Int))
    (split_to_pkgbase split_to_version : List (String × String))
    (asdeps : Bool) : Option (List Event) :=
  (buildPlan split_to_depth split_to_pkgbase).map (fun plan =>
    (groupByDepth plan).flatMap
      (tierEvents (archiveWhitelist split_to_version) asdeps))

/-! ### Model of `install` and `show_install_summary` -/

/-- The fields of a `raur::Package` the install path reads. -/
structure RaurPackage where
  package_base : String
  version : String
deriving DecidableEq

/-- The `not_found` list of `install`: keys of `split_to_depth` that are
absent from `split_to_raur`. -/
def notFoundOf (split_to_raur : List (String × RaurPackage))
    (split_to_depth : List (String × Int)) : List String :=
  (split_to_depth.map (fun p => p.1)).filter
    (fun pkg => !(split_to_raur.any (fun q => q.1 == pkg)))

/-- The confirmation loop of `show_install_summary`: read lines until one
equals the affirmative token; `true` means the loop broke and the run
proceeds, `false` means the input lines ran out with the loop still
prompting. -/
def confirmLoop : List String → Bool
  | [] => false
  | s :: rest => if s == ("o") then true else confirmLoop rest

/-- Model of `show_install_summary`: when the total count of pacman
dependencies plus AUR packages equals one, the function returns at once
(no summary, no prompt); otherwise it prints the summary and runs the
confirmation loop. `true` means the function returned and the run
proceeds. -/
def show_install_summary (pacman_deps : List String)
    (aur_packages : List (String × Int)) (inputs : List String) : Bool :=
  if pacman_deps.length + aur_packages.length = 1 then true
  else confirmLoop inputs

/-- Outcome of one `install` run. -/
inductive InstallResult where
  /-- Some required names were missing from the AUR response: the process
  prints them all and exits with this status code. -/
  | exited (code : Nat) (missing : List String) : InstallResult
  /-- The confirmation prompt never received the affirmative token: the run
  blocks at the prompt forever. -/
  | blocked : InstallResult
  /-- Review and pacman-dependency installation ran, then `install_all`
  produced this trace. -/
  | proceeded (trace : Option (List Event)) : InstallResult
deriving DecidableEq

/-- Model of `install`: derive `split_to_pkgbase` and `split_to_version`
from the AUR response, exit with status 1 listing the `not_found` names if
any required split is missing, otherwise show the summary (blocking on
confirmation) and run `install_all`. The offline flag only reaches the
out-of-scope confined builder and is omitted. -/
def install (split_to_raur : List (String × RaurPackage))
    (pacman_deps : List String) (split_to_depth : List (String × Int))
    (asdeps : Bool) (inputs : List String) : InstallResult :=
  let split_to_pkgbase := split_to_raur.map (fun p => (p.1, p.2.package_base))
  let split_to_version := split_to_raur.map (fun p => (p.1, p.2.version))
  let not_found := notFoundOf split_to_raur split_to_depth
  if not_found.isEmpty then
    if show_install_summary pacman_deps split_to_depth inputs then
      .proceeded (install_all split_to_depth split_to_pkgbase split_to_version asdeps)
    else .blocked
  else .exited 1 not_found

/-- Modelled from the spec words of claim C8, for comparison with the code:
the whitelist "derived from that tier's resolved versions", i.e. the
`split-version` entries of exactly the split targets belonging to the given
tier. -/
def tierWhitelistSpec (split_to_version : List (String × String))
    (tierSplits : List String) : List String :=
  (split_to_version.filter (fun p => tierSplits.contains p.1)).map
    (fun p => p.1 ++ ("-") ++ p.2)

/-! ### Helper lemmas on the archive scan -/

theorem entryNormal_iff (e : Entry) :
    entryNormal e = true ↔
      strEndsWith e.path ("/") = false ∧ strStartsWith e.path (".") = false := by
  simp [entryNormal]

theorem scanEntries_all_files_mem (es : List Entry) (st : ScanState) (p : String) :
    p ∈ (scanEntries st es).all_files ↔
      p ∈ st.all_files ∨ ∃ e ∈ es, e.path = p ∧ entryNormal e = true := by
  induction es generalizing st with
  | nil => simp [scanEntries]
  | cons e es ih =>
    rw [scanEntries, ih]
    have hf : (scanEntry st e).all_files =
        st.all_files ++ (if entryNormal e then [e.path] else []) := rfl
    rw [hf]
    by_cases h : entryNormal e <;> simp [h] <;> aesop

theorem scanEntries_executable_files_mem (es : List Entry) (st : ScanState) (p : String) :
    p ∈ (scanEntries st es).executable_files ↔
      p ∈ st.executable_files ∨
        ∃ e ∈ es, e.path = p ∧ (entryNormal e && decide (0 < e.mode &&& 0o111)) = true := by
  induction es generalizing st with
  | nil => simp [scanEntries]
  | cons e es ih =>
    rw [scanEntries, ih]
    have hf : (scanEntry st e).executable_files =
        st.executable_files ++
          (if entryNormal e && decide (0 < e.mode &&& 0o111) then [e.path] else []) := rfl
    rw [hf]
    by_cases h : entryNormal e && decide (0 < e.mode &&& 0o111) <;> simp [h] <;> aesop

theorem scanEntries_suid_files_mem (es : List Entry) (st : ScanState) (p : String) :
    p ∈ (scanEntries st es).suid_files ↔
      p ∈ st.suid_files ∨ ∃ e ∈ es, e.path = p ∧ 0o777 < e.mode := by
  induction es generalizing st with
  | nil => simp [scanEntries]
  | cons e es ih =>
    rw [scanEntries, ih]
    have hf : (scanEntry st e).suid_files =
        st.suid_files ++ (if decide (0o777 < e.mode) then [e.path] else []) := rfl
    rw [hf]
    by_cases h : 0o777 < e.mode <;> simp [h] <;> aesop

theorem scanEntries_install_file (es : List Entry) (st : ScanState)
    (h : ∀ e ∈ es, e.path = (".INSTALL") → e.content = ("")) :
    (scanEntries st es).install_file = st.install_file := by
  induction es generalizing st with
  | nil => rfl
  | cons e es ih =>
    rw [scanEntries, ih _ (fun x hx => h x (List.mem_cons_of_mem _ hx))]
    show st.install_file ++ (if e.path == (".INSTALL") then e.content else ("")) =
      st.install_file
    by_cases hc : e.path = (".INSTALL")
    · rw [if_pos (by simp [hc]), h e (List.mem_cons_self _ _) hc, String.append_empty]
    · rw [if_neg (by simp [hc]), String.append_empty]

/-! ### Claim theorems for the archive auditor -/

/-- C3: for every archive member with path `p` and mode `m`, the scan
classifies it as normal iff `p` does not end in the path separator and does
not start with the hidden-file marker, as executable iff it is normal and
some of the 0o111 execute bits are set, and as privileged (SUID) iff the
raw mode exceeds 0o777 — the last independently of the normal or
executable classification. -/
theorem C3_member_classification (entries : List Entry) (p : String) :
    (p ∈ (tar_check_archive entries).all_files ↔
      ∃ e ∈ entries, e.path = p ∧ strEndsWith p ("/") = false ∧ strStartsWith p (".") = false)
    ∧ (p ∈ (tar_check_archive entries).executable_files ↔
      ∃ e ∈ entries, e.path = p ∧
        (strEndsWith p ("/") = false ∧ strStartsWith p (".") = false) ∧ 0 < e.mode &&& 0o111)
    ∧ (p ∈ (tar_check_archive entries).suid_files ↔
      ∃ e ∈ entries, e.path = p ∧ 0o777 < e.mode) := by
  refine ⟨?_, ?_, ?_⟩
  · rw [tar_check_archive, scanEntries_all_files_mem]
    simp only [List.not_mem_nil, false_or]
    constructor
    · rintro ⟨e, he, hp, hn⟩
      subst hp
      exact ⟨e, he, rfl, (entryNormal_iff e).1 hn⟩
    · rintro ⟨e, he, hp, hn⟩
      subst hp
      exact ⟨e, he, rfl, (entryNormal_iff e).2 hn⟩
  · rw [tar_check_archive, scanEntries_executable_files_mem]
    simp only [List.not_mem_nil, false_or, Bool.and_eq_true, decide_eq_true_eq]
    constructor
    · rintro ⟨e, he, hp, hn, hm⟩
      subst hp
      exact ⟨e, he, rfl, (entryNormal_iff e).1 hn, hm⟩
    · rintro ⟨e, he, hp, hn, hm⟩
      subst hp
      exact ⟨e, he, rfl, (entryNormal_iff e).2 hn, hm⟩
  · rw [tar_check_archive, scanEntries_suid_files_mem]
    simp only [List.not_mem_nil, false_or]

/-- C5: an archive file whose name ends in neither supported suffix makes
`tar_check` return the unsupported-format error value (no panic),
`tar_check_unwrap` exits the process cleanly with status 1 (modelled as
`none`), and no such artifact is ever present in a checked-output
directory produced by a completed `check_tars_and_move` call. -/
theorem C5_unsupported_suffix (name : String) (buildFiles whitelist checked : List String)
    (h1 : strEndsWith name (".tar") = false)
    (h2 : strEndsWith name (".tar.xz") = false)
    (h3 : check_tars_and_move tarCheckOk buildFiles whitelist = some checked) :
    (∃ msg, tar_check name = Except.error msg)
    ∧ tar_check_unwrap name = none
    ∧ name ∉ checked := by
  have hmsg : tar_check name =
      Except.error ("Archive " ++ name ++
        " cannot be analyzed. Only .tar.xz and .tar files are supported") := by
    rw [tar_check, if_neg (by simp [h2]), if_neg (by simp [h1])]
  have hnone : tar_check_unwrap name = none := by
    rw [tar_check_unwrap, hmsg]; rfl
  refine ⟨⟨_, hmsg⟩, hnone, ?_⟩
  intro hmem
  simp only [check_tars_and_move] at h3
  split at h3
  case isTrue hall =>
    injection h3 with h3
    subst h3
    have := List.all_eq_true.1 hall name hmem
    rw [tarCheckOk, hnone] at this
    simp at this
  case isFalse => exact absurd h3 (by simp)

/-- C10: when every `.INSTALL` member of the archive has empty content, the
captured install script is empty, so the menu does not offer the
view-install-script option and the `i` key re-prompts without printing
anything; in general the option is offered exactly when the captured
script content is non-empty. -/
theorem C10_empty_install_script (entries : List Entry)
    (h : ∀ e ∈ entries, e.path = (".INSTALL") → e.content = (""))
    (st2 : ScanState) :
    offersInstallOption (tar_check_archive entries) = false
    ∧ menuStep (tar_check_archive entries) ("i") = MenuStep.again []
    ∧ (offersInstallOption st2 = true ↔ ¬ st2.install_file = ("")) := by
  have hif : (tar_check_archive entries).install_file = ("") :=
    scanEntries_install_file entries _ h
  have hs : hasInstall (tar_check_archive entries) = false := by
    rw [hasInstall, hif]; decide
  refine ⟨?_, ?_, ?_⟩
  · rw [offersInstallOption, hs]
  · simp [menuStep, hs]
  · rw [offersInstallOption, hasInstall, Bool.not_eq_true']
    constructor
    · intro hne heq
      rw [heq] at hne
      exact absurd hne (by decide)
    · intro hne
      cases hb : st2.install_file.isEmpty
      · rfl
      · exact absurd ((String.isEmpty_iff _).1 hb) hne

/-- C4: the archive whitelist consists of the `target-version` entries, and
a build-output file whose name no whitelist entry prefixes is never handed
to the archive auditor and is absent from the checked-output directory of a
completed `check_tars_and_move` call. -/
theorem C4_whitelist_excludes (split_to_version : List (String × String))
    (audit : String → Bool) (buildFiles : List String) (f : String)
    (checked : List String)
    (hf : f ∈ buildFiles)
    (hnw : ∀ w ∈ archiveWhitelist split_to_version, strStartsWith f w = false)
    (hc : check_tars_and_move audit buildFiles (archiveWhitelist split_to_version) =
      some checked) :
    archiveWhitelist split_to_version =
      split_to_version.map (fun p => p.1 ++ ("-") ++ p.2)
    ∧ f ∉ auditedFiles buildFiles (archiveWhitelist split_to_version)
    ∧ f ∉ checked := by
  have hkept : f ∉ keptFiles buildFiles (archiveWhitelist split_to_version) := by
    intro hmem
    rw [keptFiles, List.mem_filter] at hmem
    obtain ⟨-, hany⟩ := hmem
    rw [List.any_eq_true] at hany
    obtain ⟨w, hw, hsw⟩ := hany
    rw [hnw w hw] at hsw
    cases hsw
  refine ⟨rfl, hkept, ?_⟩
  simp only [check_tars_and_move] at hc
  split at hc
  · injection hc with hc
    subst hc
    exact hkept
  · exact absurd hc (by simp)

/-- Witness for C4 at a concrete input: the stray file `junk.tar` is not
prefixed by the only whitelist entry `foo-1`, is never audited, and is not
in the checked output. -/
theorem C4_witness :
    archiveWhitelist [("foo", "1")] = [("foo-1")]
    ∧ ("junk.tar") ∉ auditedFiles [("foo-1.tar"), ("junk.tar")] (archiveWhitelist [("foo", "1")])
    ∧ ("junk.tar") ∉ [("foo-1.tar")] :=
  C4_whitelist_excludes [("foo", "1")] (fun _ => true) [("foo-1.tar"), ("junk.tar")]
    ("junk.tar") [("foo-1.tar")] (by decide) (by decide) (by decide)

/-- Witness for C5 at a concrete input: `foo-1.zip` is reported as an
unsupported format, the audit exits instead of panicking, and the file is
absent from a completed checked-output set. -/
theorem C5_witness :
    (∃ msg, tar_check ("foo-1.zip") = Except.error msg)
    ∧ tar_check_unwrap ("foo-1.zip") = none
    ∧ ("foo-1.zip") ∉ [("good-1.tar")] :=
  C5_unsupported_suffix ("foo-1.zip") [("good-1.tar")] [("good-1")] [("good-1.tar")]
    (by decide) (by decide) (by decide)

/-- Witness for C10 at a concrete input: one `.INSTALL` member with empty
content. -/
theorem C10_witness :
    offersInstallOption (tar_check_archive [⟨(".INSTALL"), 0o644, ("")⟩]) = false
    ∧ menuStep (tar_check_archive [⟨(".INSTALL"), 0o644, ("")⟩]) ("i") = MenuStep.again []
    ∧ (offersInstallOption ⟨("x"), [], [], []⟩ = true ↔
        ¬ ScanState.install_file ⟨("x"), [], [], []⟩ = ("")) :=
  C10_empty_install_script [⟨(".INSTALL"), 0o644, ("")⟩] (by decide) ⟨("x"), [], [], []⟩

/-! ### Helper lemmas on the dedup and sort pipeline of `install_all` -/

theorem uniqueByPkgbase_sublist (seen : List String) (l : List PkgEntry) :
    List.Sublist (uniqueByPkgbase seen l) l := by
  induction l generalizing seen with
  | nil => exact List.Sublist.refl []
  | cons x xs ih =>
    rw [uniqueByPkgbase]
    by_cases h : seen.contains x.1
    · rw [if_pos h]
      exact (ih seen).cons x
    · rw [if_neg h]
      exact (ih (x.1 :: seen)).cons₂ x

theorem mem_uniqueByPkgbase (seen : List String) (l : List PkgEntry) (e : PkgEntry)
    (he : e ∈ uniqueByPkgbase seen l) : e ∈ l ∧ seen.contains e.1 = false := by
  induction l generalizing seen with
  | nil => cases he
  | cons x xs ih =>
    rw [uniqueByPkgbase] at he
    by_cases h : seen.contains x.1
    · rw [if_pos h] at he
      obtain ⟨h1, h2⟩ := ih seen he
      exact ⟨List.mem_cons_of_mem x h1, h2⟩
    · rw [if_neg h] at he
      rcases List.mem_cons.1 he with rfl | he
      · exact ⟨List.mem_cons_self _ _, Bool.eq_false_iff.2 h⟩
      · obtain ⟨h1, h2⟩ := ih (x.1 :: seen) he
        refine ⟨List.mem_cons_of_mem x h1, ?_⟩
        rw [List.contains_cons, Bool.or_eq_false_iff] at h2
        exact h2.2

theorem countP_uniqueByPkgbase_seen (seen : List String) (l : List PkgEntry) (pb : String)
    (hseen : seen.contains pb = true) :
    (uniqueByPkgbase seen l).countP (fun e => e.1 == pb) = 0 := by
  rw [List.countP_eq_zero]
  intro e he hbeq
  obtain ⟨-, hnot⟩ := mem_uniqueByPkgbase seen l e he
  have heq : e.1 = pb := by simpa using hbeq
  rw [heq, hseen] at hnot
  simp at hnot

theorem countP_uniqueByPkgbase_one (l : List PkgEntry) (pb : String) :
    ∀ seen : List String, seen.contains pb = false →
      pb ∈ l.map (fun e => e.1) →
      (uniqueByPkgbase seen l).countP (fun e => e.1 == pb) = 1 := by
  induction l with
  | nil => intro _ _ hpb; cases hpb
  | cons x xs ih =>
    intro seen hseen hpb
    rw [uniqueByPkgbase]
    by_cases h : seen.contains x.1
    · rw [if_pos h]
      have hne : ¬ x.1 = pb := by
        intro heq
        rw [heq, hseen] at h
        simp at h
      rcases List.mem_map.1 hpb with ⟨y, hy, hy1⟩
      rcases List.mem_cons.1 hy with rfl | hy
      · exact absurd hy1 hne
      · exact ih seen hseen (List.mem_map.2 ⟨y, hy, hy1⟩)
    · rw [if_neg h, List.countP_cons]
      by_cases hx : x.1 = pb
      · rw [hx, countP_uniqueByPkgbase_seen (pb :: seen) xs pb (by simp)]
        simp
      · have hxb : (x.1 == pb) = false := by simpa using hx
        rw [hxb, if_neg (by decide), Nat.add_zero]
        have hpb' : pb ∈ xs.map (fun e => e.1) := by
          rcases List.mem_map.1 hpb with ⟨y, hy, hy1⟩
          rcases List.mem_cons.1 hy with rfl | hy
          · exact absurd hy1 hx
          · exact List.mem_map.2 ⟨y, hy, hy1⟩
        refine ih (x.1 :: seen) ?_ hpb'
        rw [List.contains_cons, Bool.or_eq_false_iff]
        refine ⟨?_, hseen⟩
        simpa using fun heq => hx heq.symm

theorem uniqueByPkgbase_max (l : List PkgEntry) :
    l.Pairwise (fun a b => b.2.1 ≤ a.2.1) →
    ∀ (seen : List String) (e : PkgEntry), e ∈ uniqueByPkgbase seen l →
    ∀ y ∈ l, y.1 = e.1 → y.2.1 ≤ e.2.1 := by
  induction l with
  | nil => intro _ _ _ _ y hy; cases hy
  | cons x xs ih =>
    intro hsort seen e he y hy hkey
    rw [List.pairwise_cons] at hsort
    obtain ⟨hx, hxs⟩ := hsort
    rw [uniqueByPkgbase] at he
    by_cases h : seen.contains x.1
    · rw [if_pos h] at he
      rcases List.mem_cons.1 hy with heq | hy'
      · obtain ⟨-, hnot⟩ := mem_uniqueByPkgbase _ _ _ he
        rw [← hkey, heq, h] at hnot
        simp at hnot
      · exact ih hxs seen e he y hy' hkey
    · rw [if_neg h] at he
      rcases List.mem_cons.1 he with heq | he'
      · rw [heq]
        rcases List.mem_cons.1 hy with heq2 | hy'
        · rw [heq2]
        · exact hx y hy'
      · rcases List.mem_cons.1 hy with heq2 | hy'
        · obtain ⟨-, hnot⟩ := mem_uniqueByPkgbase _ _ _ he'
          rw [List.contains_cons, ← hkey, heq2] at hnot
          simp at hnot
        · exact ih hxs (x.1 :: seen) e he' y hy' hkey

/-- The merge-sorted package list is descending in depth. -/
theorem mergeSort_depth_sorted (l : List PkgEntry) :
    (l.mergeSort depthDescending).Pairwise (fun a b => b.2.1 ≤ a.2.1) := by
  have h := @List.sorted_mergeSort PkgEntry depthDescending
    (fun a b c hab hbc => by
      simp only [depthDescending, decide_eq_true_eq] at hab hbc ⊢
      omega)
    (fun a b => by
      simp only [depthDescending, Bool.or_eq_true, decide_eq_true_eq]
      omega)
    l
  exact h.imp (fun hab => by
    simp only [depthDescending, decide_eq_true_eq] at hab
    omega)

/-- Every successful build plan is descending in depth. -/
theorem buildPlan_pairwise (std : List (String × Int)) (stp : List (String × String))
    (plan : List PkgEntry) (h : buildPlan std stp = some plan) :
    plan.Pairwise (fun a b => b.2.1 ≤ a.2.1) := by
  rw [buildPlan] at h
  cases hb : packagesOf std stp with
  | none => rw [hb] at h; cases h
  | some pkgs =>
    rw [hb, Option.map_some'] at h
    obtain rfl := (Option.some.inj h).symm
    exact (mergeSort_depth_sorted pkgs).sublist
      (uniqueByPkgbase_sublist [] (pkgs.mergeSort depthDescending))

/-- Evaluation helper: when the package list is already descending, the
stable merge sort leaves it unchanged and the build plan is the
deduplication of the list itself. -/
theorem buildPlan_eval (std : List (String × Int)) (stp : List (String × String))
    (pkgs : List PkgEntry)
    (h1 : packagesOf std stp = some pkgs)
    (hs : pkgs.Pairwise (fun a b => depthDescending a b = true)) :
    buildPlan std stp = some (uniqueByPkgbase [] pkgs) := by
  rw [buildPlan, h1, Option.map_some', List.mergeSort_of_sorted hs]

/-- Evaluation helper for whole `install_all` runs on descending inputs. -/
theorem install_all_eval (std : List (String × Int))
    (stp stv : List (String × String)) (asdeps : Bool) (pkgs : List PkgEntry)
    (h1 : packagesOf std stp = some pkgs)
    (hs : pkgs.Pairwise (fun a b => depthDescending a b = true)) :
    install_all std stp stv asdeps =
      some ((groupByDepth (uniqueByPkgbase [] pkgs)).flatMap
        (tierEvents (archiveWhitelist stv) asdeps)) := by
  rw [install_all, buildPlan_eval std stp pkgs h1 hs, Option.map_some']

/-- C1: every package-base reachable from the resolved split targets occurs
exactly once in the deduplicated build plan, and the depth at which it
occurs is attained by one of its split targets and dominates the depth of
every split target mapping to that package-base. -/
theorem C1_pkgbase_once_max_depth (std : List (String × Int))
    (stp : List (String × String)) (pkgs plan : List PkgEntry)
    (h1 : packagesOf std stp = some pkgs)
    (h2 : buildPlan std stp = some plan)
    (pb : String) (hpb : pb ∈ pkgs.map (fun e => e.1)) :
    plan.countP (fun e => e.1 == pb) = 1
    ∧ ∃ e ∈ plan, e.1 = pb
        ∧ (∃ y ∈ pkgs, y.1 = pb ∧ y.2.1 = e.2.1)
        ∧ (∀ y ∈ pkgs, y.1 = pb → y.2.1 ≤ e.2.1) := by
  rw [buildPlan, h1, Option.map_some'] at h2
  obtain rfl := (Option.some.inj h2).symm
  have hperm : List.Perm (pkgs.mergeSort depthDescending) pkgs :=
    List.mergeSort_perm pkgs depthDescending
  have hpb' : pb ∈ (pkgs.mergeSort depthDescending).map (fun e => e.1) := by
    rcases List.mem_map.1 hpb with ⟨y, hy, hy1⟩
    exact List.mem_map.2 ⟨y, hperm.mem_iff.2 hy, hy1⟩
  have hsort := mergeSort_depth_sorted pkgs
  have hcount := countP_uniqueByPkgbase_one (pkgs.mergeSort depthDescending) pb [] rfl hpb'
  refine ⟨hcount, ?_⟩
  have hpos : 0 < (uniqueByPkgbase [] (pkgs.mergeSort depthDescending)).countP
      (fun e => e.1 == pb) := by
    rw [hcount]
    exact Nat.one_pos
  rw [List.countP_pos_iff] at hpos
  obtain ⟨e, he, hep⟩ := hpos
  have hep' : e.1 = pb := by simpa using hep
  refine ⟨e, he, hep', ?_, ?_⟩
  · have hmem : e ∈ pkgs :=
      hperm.mem_iff.1 ((uniqueByPkgbase_sublist [] _).subset he)
    exact ⟨e, hmem, hep', rfl⟩
  · intro y hy hy1
    exact uniqueByPkgbase_max (pkgs.mergeSort depthDescending) hsort [] e he y
      (hperm.mem_iff.2 hy) (hy1.trans hep'.symm)

/-- Witness for C1 at a concrete input: the pkgbase `base` is produced by
two split targets, at depths 1 and 0; the plan contains it once, at
depth 1. -/
theorem C1_witness :
    ([(("base"), (1 : Int), ("a1"))] : List PkgEntry).countP
        (fun e => e.1 == ("base")) = 1
    ∧ ∃ e ∈ ([(("base"), (1 : Int), ("a1"))] : List PkgEntry), e.1 = ("base")
        ∧ (∃ y ∈ ([(("base"), (1 : Int), ("a1")), (("base"), (0 : Int), ("a0"))] :
            List PkgEntry), y.1 = ("base") ∧ y.2.1 = e.2.1)
        ∧ (∀ y ∈ ([(("base"), (1 : Int), ("a1")), (("base"), (0 : Int), ("a0"))] :
            List PkgEntry), y.1 = ("base") → y.2.1 ≤ e.2.1) :=
  C1_pkgbase_once_max_depth [("a1", 1), ("a0", 0)] [("a1", "base"), ("a0", "base")]
    [(("base"), (1 : Int), ("a1")), (("base"), (0 : Int), ("a0"))]
    [(("base"), (1 : Int), ("a1"))]
    (by decide)
    (by
      rw [buildPlan_eval [("a1", 1), ("a0", 0)] [("a1", "base"), ("a0", "base")]
        [(("base"), (1 : Int), ("a1")), (("base"), (0 : Int), ("a0"))]
        (by decide) (by decide)]
      decide)
    ("base") (by decide)

/-- The depth of the tier during which an event happens. -/
def Event.tierDepth : Event → Int
  | .build _ d => d
  | .audit _ d _ => d
  | .install d _ => d

/-- The position of an event inside its tier: builds happen first, then
audits, then the single privileged install call. -/
def Event.phase : Event → Nat
  | .build _ _ => 0
  | .audit _ _ _ => 1
  | .install _ _ => 2

/-- The temporal order the spec demands of any two trace events `e1`
occurring before `e2`: either `e2` belongs to a strictly shallower tier, or
both belong to the same tier and `e1` is in an earlier-or-equal phase
(build before audit before install). -/
def eventOrder (e1 e2 : Event) : Prop :=
  e2.tierDepth < e1.tierDepth ∨ (e1.tierDepth = e2.tierDepth ∧ e1.phase ≤ e2.phase)

theorem pairwise_of_all {α : Type} {R : α → α → Prop} (h : ∀ a b, R a b) :
    ∀ l : List α, l.Pairwise R
  | [] => .nil
  | x :: xs => .cons (fun y _ => h x y) (pairwise_of_all h xs)

theorem tierEvents_depth (wl : List String) (b : Bool) (t : Int × List PkgEntry)
    (e : Event) (he : e ∈ tierEvents wl b t) : e.tierDepth = t.1 := by
  rw [tierEvents, List.mem_append, List.mem_append] at he
  rcases he with (he | he) | he
  · rcases List.mem_map.1 he with ⟨p, -, rfl⟩
    rfl
  · rcases List.mem_map.1 he with ⟨p, -, rfl⟩
    rfl
  · rcases List.mem_singleton.1 he with rfl
    rfl

theorem tierEvents_phase_mem (wl : List String) (b : Bool) (t : Int × List PkgEntry) :
    (∀ e ∈ t.2.map (fun p => Event.build p.1 t.1), e.tierDepth = t.1 ∧ e.phase = 0)
    ∧ (∀ e ∈ t.2.map (fun p => Event.audit p.1 t.1 wl), e.tierDepth = t.1 ∧ e.phase = 1) := by
  constructor
  · intro e he
    rcases List.mem_map.1 he with ⟨p, -, rfl⟩
    exact ⟨rfl, rfl⟩
  · intro e he
    rcases List.mem_map.1 he with ⟨p, -, rfl⟩
    exact ⟨rfl, rfl⟩

theorem tierEvents_pairwise (wl : List String) (b : Bool) (t : Int × List PkgEntry) :
    (tierEvents wl b t).Pairwise eventOrder := by
  obtain ⟨hbuild, haudit⟩ := tierEvents_phase_mem wl b t
  rw [tierEvents, List.pairwise_append]
  refine ⟨?_, List.pairwise_singleton _ _, ?_⟩
  · rw [List.pairwise_append]
    refine ⟨?_, ?_, ?_⟩
    · rw [List.pairwise_map]
      exact pairwise_of_all (fun a c => Or.inr ⟨rfl, Nat.le_refl 0⟩) t.2
    · rw [List.pairwise_map]
      exact pairwise_of_all (fun a c => Or.inr ⟨rfl, Nat.le_refl 1⟩) t.2
    · intro a ha c hc
      obtain ⟨hd, hp⟩ := hbuild a ha
      obtain ⟨hd2, hp2⟩ := haudit c hc
      exact Or.inr ⟨by rw [hd, hd2], by rw [hp, hp2]; exact Nat.zero_le 1⟩
  · intro a ha c hc
    rcases List.mem_singleton.1 hc with rfl
    rw [List.mem_append] at ha
    rcases ha with ha | ha
    · obtain ⟨hd, hp⟩ := hbuild a ha
      exact Or.inr ⟨by rw [hd]; rfl, by rw [hp]; exact Nat.zero_le _⟩
    · obtain ⟨hd, hp⟩ := haudit a ha
      exact Or.inr ⟨by rw [hd]; rfl, by rw [hp]; exact Nat.le_succ 1⟩

theorem groupByDepth_cons_nil (x : PkgEntry) (xs : List PkgEntry)
    (hg : groupByDepth xs = []) :
    groupByDepth (x :: xs) = [(x.2.1, [x])] := by
  rw [groupByDepth, hg]

theorem groupByDepth_cons_cons (x : PkgEntry) (xs : List PkgEntry) (k : Int)
    (tk : List PkgEntry) (rest : List (Int × List PkgEntry))
    (hg : groupByDepth xs = (k, tk) :: rest) :
    groupByDepth (x :: xs) =
      if x.2.1 = k then (k, x :: tk) :: rest
      else (x.2.1, [x]) :: (k, tk) :: rest := by
  rw [groupByDepth, hg]

theorem groupByDepth_key_mem (l : List PkgEntry) (d : Int) (tier : List PkgEntry)
    (h : (d, tier) ∈ groupByDepth l) : ∃ e ∈ l, e.2.1 = d := by
  induction l generalizing d tier with
  | nil => cases h
  | cons x xs ih =>
    cases hg : groupByDepth xs with
    | nil =>
      rw [groupByDepth_cons_nil x xs hg] at h
      simp only [List.mem_singleton, Prod.mk.injEq] at h
      obtain ⟨rfl, -⟩ := h
      exact ⟨x, List.mem_cons_self _ _, rfl⟩
    | cons kt rest =>
      obtain ⟨k, tk⟩ := kt
      rw [groupByDepth_cons_cons x xs k tk rest hg] at h
      by_cases hk : x.2.1 = k
      · rw [if_pos hk] at h
        rcases List.mem_cons.1 h with heq | hmem
        · simp only [Prod.mk.injEq] at heq
          obtain ⟨rfl, -⟩ := heq
          exact ⟨x, List.mem_cons_self _ _, hk⟩
        · obtain ⟨e, he, hd⟩ := ih d tier (by rw [hg]; exact List.mem_cons_of_mem _ hmem)
          exact ⟨e, List.mem_cons_of_mem _ he, hd⟩
      · rw [if_neg hk] at h
        rcases List.mem_cons.1 h with heq | hmem
        · simp only [Prod.mk.injEq] at heq
          obtain ⟨rfl, -⟩ := heq
          exact ⟨x, List.mem_cons_self _ _, rfl⟩
        · obtain ⟨e, he, hd⟩ := ih d tier (by rw [hg]; exact hmem)
          exact ⟨e, List.mem_cons_of_mem _ he, hd⟩

theorem groupByDepth_keys_strict (l : List PkgEntry)
    (hsort : l.Pairwise (fun a b => b.2.1 ≤ a.2.1)) :
    ((groupByDepth l).map (fun t => t.1)).Pairwise (fun a b => b < a) := by
  induction l with
  | nil => exact List.Pairwise.nil
  | cons x xs ih =>
    rw [List.pairwise_cons] at hsort
    obtain ⟨hx, hxs⟩ := hsort
    have IH := ih hxs
    cases hg : groupByDepth xs with
    | nil =>
      rw [groupByDepth_cons_nil x xs hg]
      exact List.pairwise_singleton _ _
    | cons kt rest =>
      obtain ⟨k, tk⟩ := kt
      rw [hg] at IH
      have hkx : k ≤ x.2.1 := by
        obtain ⟨e, he, hek⟩ := groupByDepth_key_mem xs k tk
          (by rw [hg]; exact List.mem_cons_self _ _)
        rw [← hek]
        exact hx e he
      by_cases hk : x.2.1 = k
      · rw [groupByDepth_cons_cons x xs k tk rest hg, if_pos hk]
        simp only [List.map_cons] at IH ⊢
        exact IH
      · rw [groupByDepth_cons_cons x xs k tk rest hg, if_neg hk]
        simp only [List.map_cons] at IH ⊢
        rw [List.pairwise_cons]
        refine ⟨?_, IH⟩
        intro y hy
        rcases List.mem_cons.1 hy with rfl | hy'
        · exact lt_of_le_of_ne hkx (fun heq => hk heq.symm)
        · rw [List.pairwise_cons] at IH
          exact lt_of_lt_of_le (IH.1 y hy') hkx

theorem trace_pairwise (wl : List String) (b : Bool)
    (tiers : List (Int × List PkgEntry))
    (hkeys : (tiers.map (fun t => t.1)).Pairwise (fun a b => b < a)) :
    (tiers.flatMap (tierEvents wl b)).Pairwise eventOrder := by
  rw [List.pairwise_flatMap]
  refine ⟨fun t _ => tierEvents_pairwise wl b t, ?_⟩
  rw [List.pairwise_map] at hkeys
  refine hkeys.imp ?_
  intro t1 t2 hlt x hx y hy
  exact Or.inl (by
    rw [tierEvents_depth wl b t1 x hx, tierEvents_depth wl b t2 y hy]
    exact hlt)

/-- C2: in every `install_all` run the tier depths are strictly decreasing,
and the emitted trace is ordered so that an earlier event is either in a
strictly deeper tier or in the same tier at an earlier-or-equal phase — in
particular every build and audit of a tier precedes that tier's single
privileged install call, which in turn precedes every event of the next
(shallower) tier. -/
theorem C2_tier_temporal_order (std : List (String × Int))
    (stp stv : List (String × String)) (asdeps : Bool)
    (plan : List PkgEntry) (trace : List Event)
    (h1 : buildPlan std stp = some plan)
    (h2 : install_all std stp stv asdeps = some trace) :
    ((groupByDepth plan).map (fun t => t.1)).Pairwise (fun a b => b < a)
    ∧ trace.Pairwise eventOrder := by
  have hsort := buildPlan_pairwise std stp plan h1
  have hkeys := groupByDepth_keys_strict plan hsort
  rw [install_all, h1, Option.map_some'] at h2
  obtain rfl := (Option.some.inj h2).symm
  exact ⟨hkeys, trace_pairwise _ _ _ hkeys⟩

/-- Witness for C2 at a concrete two-tier input (`libbar` at depth 1,
`foo` at depth 0). -/
theorem C2_witness :
    ((groupByDepth [(("libbar"), (1 : Int), ("libbar")), (("foo"), (0 : Int), ("foo"))]).map
        (fun t => t.1)).Pairwise (fun a b => b < a)
    ∧ ([Event.build ("libbar") 1,
        Event.audit ("libbar") 1 [("libbar-2"), ("foo-1")],
        Event.install 1 true,
        Event.build ("foo") 0,
        Event.audit ("foo") 0 [("libbar-2"), ("foo-1")],
        Event.install 0 false] : List Event).Pairwise eventOrder :=
  C2_tier_temporal_order [("libbar", 1), ("foo", 0)]
    [("libbar", "libbar"), ("foo", "foo")] [("libbar", "2"), ("foo", "1")] false
    [(("libbar"), (1 : Int), ("libbar")), (("foo"), (0 : Int), ("foo"))]
    [Event.build ("libbar") 1,
      Event.audit ("libbar") 1 [("libbar-2"), ("foo-1")],
      Event.install 1 true,
      Event.build ("foo") 0,
      Event.audit ("foo") 0 [("libbar-2"), ("foo-1")],
      Event.install 0 false]
    (by
      rw [buildPlan_eval [("libbar", 1), ("foo", 0)] [("libbar", "libbar"), ("foo", "foo")]
        [(("libbar"), (1 : Int), ("libbar")), (("foo"), (0 : Int), ("foo"))]
        (by decide) (by decide)]
      decide)
    (by
      rw [install_all_eval [("libbar", 1), ("foo", 0)] [("libbar", "libbar"), ("foo", "foo")]
        [("libbar", "2"), ("foo", "1")] false
        [(("libbar"), (1 : Int), ("libbar")), (("foo"), (0 : Int), ("foo"))]
        (by decide) (by decide)]
      decide)

/-- C6: when some split target recorded in `split_to_depth` is absent from
the AUR metadata response, `install` prints the aggregate list of all
missing names and exits with status 1, performing no build or install
step. -/
theorem C6_missing_packages_abort (split_to_raur : List (String × RaurPackage))
    (pacman_deps : List String) (split_to_depth : List (String × Int))
    (asdeps : Bool) (inputs : List String) (k : String) (trace : Option (List Event))
    (h : ∃ j ∈ split_to_depth.map (fun p => p.1), ∀ r ∈ split_to_raur, ¬ r.1 = j) :
    install split_to_raur pacman_deps split_to_depth asdeps inputs
      = InstallResult.exited 1 (notFoundOf split_to_raur split_to_depth)
    ∧ (k ∈ notFoundOf split_to_raur split_to_depth ↔
        (k ∈ split_to_depth.map (fun p => p.1) ∧ ∀ r ∈ split_to_raur, ¬ r.1 = k))
    ∧ install split_to_raur pacman_deps split_to_depth asdeps inputs
        ≠ InstallResult.proceeded trace := by
  have hchar : ∀ j, j ∈ notFoundOf split_to_raur split_to_depth ↔
      (j ∈ split_to_depth.map (fun p => p.1) ∧ ∀ r ∈ split_to_raur, ¬ r.1 = j) := by
    intro j
    rw [notFoundOf, List.mem_filter]
    constructor
    · rintro ⟨hmem, hno⟩
      refine ⟨hmem, ?_⟩
      intro r hr hreq
      rw [Bool.not_eq_eq_eq_not, Bool.not_true, List.any_eq_false] at hno
      have := hno r hr
      rw [hreq] at this
      simp at this
    · rintro ⟨hmem, hno⟩
      refine ⟨hmem, ?_⟩
      rw [Bool.not_eq_eq_eq_not, Bool.not_true, List.any_eq_false]
      intro r hr
      have := hno r hr
      simpa using this
  have hne : ¬ (notFoundOf split_to_raur split_to_depth).isEmpty = true := by
    obtain ⟨j, hj1, hj2⟩ := h
    rw [List.isEmpty_iff]
    intro hnil
    have hmem := (hchar j).2 ⟨hj1, hj2⟩
    rw [hnil] at hmem
    exact List.not_mem_nil j hmem
  have hinst : install split_to_raur pacman_deps split_to_depth asdeps inputs
      = InstallResult.exited 1 (notFoundOf split_to_raur split_to_depth) := by
    rw [install, if_neg hne]
  refine ⟨hinst, hchar k, ?_⟩
  rw [hinst]
  intro hcon
  cases hcon

/-- Witness for C6 at a concrete input: the required split `foo` is missing
from an empty AUR response. -/
theorem C6_witness :
    install [] [] [("foo", 0)] false []
      = InstallResult.exited 1 (notFoundOf [] [("foo", 0)])
    ∧ (("foo") ∈ notFoundOf [] [("foo", 0)] ↔
        (("foo") ∈ ([("foo", 0)] : List (String × Int)).map (fun p => p.1)
          ∧ ∀ r ∈ ([] : List (String × RaurPackage)), ¬ r.1 = ("foo")))
    ∧ install [] [] [("foo", 0)] false [] ≠ InstallResult.proceeded none :=
  C6_missing_packages_abort [] [] [("foo", 0)] false [] ("foo") none (by decide)

/-- Counterexample for C7 as stated: with a single AUR package and no
pacman dependencies, `show_install_summary` returns at once (the early
single-package return), so the run proceeds to building although the
operator never entered the affirmative token. -/
theorem C7_counterexample :
    show_install_summary [] [("foo", 0)] [] = true
    ∧ ("o") ∉ ([] : List String) := by
  constructor
  · decide
  · exact List.not_mem_nil _

/-- C7 as amended: whenever the summary covers a total of packages other
than one, the run proceeds to building exactly when the operator enters the
affirmative token `o`; any other input re-prompts and the loop never falls
through. With exactly one package in total, the summary and the
confirmation prompt are skipped entirely. -/
theorem C7_confirmation_loop (pacman_deps : List String)
    (aur_packages : List (String × Int)) (inputs : List String)
    (h : ¬ pacman_deps.length + aur_packages.length = 1) :
    (show_install_summary pacman_deps aur_packages inputs = true ↔ ("o") ∈ inputs) := by
  rw [show_install_summary, if_neg h]
  induction inputs with
  | nil =>
    rw [confirmLoop]
    constructor
    · intro hcon
      cases hcon
    · intro hcon
      cases hcon
  | cons s rest ih =>
    rw [confirmLoop]
    by_cases hs : s == ("o")
    · rw [if_pos hs]
      have : s = ("o") := by simpa using hs
      rw [this]
      simp
    · rw [if_neg hs]
      rw [ih]
      rw [List.mem_cons]
      constructor
      · intro hmem
        exact Or.inr hmem
      · rintro (heq | hmem)
        · rw [← heq] at hs
          simp at hs
        · exact hmem

/-- Witness for C7 (amended) at a concrete input: two packages, the first
input line is not the token, the second is. -/
theorem C7_witness :
    show_install_summary [("dep")] [("a", 0), ("b", 1)] [("x"), ("o")] = true ↔
      ("o") ∈ [("x"), ("o")] :=
  C7_confirmation_loop [("dep")] [("a", 0), ("b", 1)] [("x"), ("o")] (by decide)

/-- Every trace event of a successful `install_all` run belongs to some
tier of the grouped build plan. -/
theorem install_all_mem (std : List (String × Int)) (stp stv : List (String × String))
    (asdeps : Bool) (trace : List Event) (e : Event)
    (h : install_all std stp stv asdeps = some trace) (he : e ∈ trace) :
    ∃ plan t, buildPlan std stp = some plan ∧ t ∈ groupByDepth plan
      ∧ e ∈ tierEvents (archiveWhitelist stv) asdeps t := by
  rw [install_all] at h
  cases hb : buildPlan std stp with
  | none =>
    rw [hb] at h
    cases h
  | some plan =>
    rw [hb, Option.map_some'] at h
    obtain rfl := (Option.some.inj h).symm
    rcases List.mem_flatMap.1 he with ⟨t, ht, hte⟩
    exact ⟨plan, t, rfl, ht, hte⟩

/-- Counterexample for C8 as stated: in the two-tier run below, the audit
of `libbar` (the depth-1 tier) is invoked with the run-global whitelist,
which also contains the entry `foo-1` of the depth-0 tier; the whitelist
derived from the depth-1 tier's own resolved versions would be just
`libbar-2`. -/
theorem C8_counterexample :
    install_all [("libbar", 1), ("foo", 0)] [("libbar", "libbar"), ("foo", "foo")]
        [("libbar", "2"), ("foo", "1")] false
      = some [Event.build ("libbar") 1,
          Event.audit ("libbar") 1 [("libbar-2"), ("foo-1")],
          Event.install 1 true,
          Event.build ("foo") 0,
          Event.audit ("foo") 0 [("libbar-2"), ("foo-1")],
          Event.install 0 false]
    ∧ tierWhitelistSpec [("libbar", "2"), ("foo", "1")] [("libbar")] = [("libbar-2")]
    ∧ ¬ ([("libbar-2"), ("foo-1")] : List String) = [("libbar-2")] := by
  refine ⟨?_, by decide, by decide⟩
  rw [install_all_eval [("libbar", 1), ("foo", 0)] [("libbar", "libbar"), ("foo", "foo")]
    [("libbar", "2"), ("foo", "1")] false
    [(("libbar"), (1 : Int), ("libbar")), (("foo"), (0 : Int), ("foo"))]
    (by decide) (by decide)]
  decide

/-- C8 as amended: every audit in every tier of an `install_all` run is
invoked with the single run-global whitelist computed at the start of
`install_all` from all resolved versions — not with a per-tier
whitelist. -/
theorem C8_audits_use_global_whitelist (std : List (String × Int))
    (stp stv : List (String × String)) (asdeps : Bool) (trace : List Event)
    (pb : String) (d : Int) (wl : List String)
    (h : install_all std stp stv asdeps = some trace)
    (hmem : Event.audit pb d wl ∈ trace) :
    wl = archiveWhitelist stv := by
  obtain ⟨plan, t, -, -, hte⟩ := install_all_mem std stp stv asdeps trace _ h hmem
  rw [tierEvents, List.mem_append, List.mem_append] at hte
  rcases hte with (hb | ha) | hi
  · rcases List.mem_map.1 hb with ⟨p, -, hpe⟩
    cases hpe
  · rcases List.mem_map.1 ha with ⟨p, -, hpe⟩
    injection hpe with h1 h2 h3
    exact h3.symm
  · have hpe := List.mem_singleton.1 hi
    cases hpe

/-- Witness for C8 (amended) at the concrete two-tier input. -/
theorem C8_witness :
    ([("libbar-2"), ("foo-1")] : List String)
      = archiveWhitelist [("libbar", "2"), ("foo", "1")] :=
  C8_audits_use_global_whitelist [("libbar", 1), ("foo", 0)]
    [("libbar", "libbar"), ("foo", "foo")] [("libbar", "2"), ("foo", "1")] false
    [Event.build ("libbar") 1,
      Event.audit ("libbar") 1 [("libbar-2"), ("foo-1")],
      Event.install 1 true,
      Event.build ("foo") 0,
      Event.audit ("foo") 0 [("libbar-2"), ("foo-1")],
      Event.install 0 false]
    ("libbar") 1 [("libbar-2"), ("foo-1")]
    (by
      rw [install_all_eval [("libbar", 1), ("foo", 0)] [("libbar", "libbar"), ("foo", "foo")]
        [("libbar", "2"), ("foo", "1")] false
        [(("libbar"), (1 : Int), ("libbar")), (("foo"), (0 : Int), ("foo"))]
        (by decide) (by decide)]
      decide)
    (by decide)

/-- C9: the batch a tier submits to the privileged installer is marked as a
dependency install exactly when `asdeps` is set or the tier depth is
positive; in particular a depth-0 tier with `asdeps` unset is never marked
as a dependency install. -/
theorem C9_dependency_flag (std : List (String × Int))
    (stp stv : List (String × String)) (asdeps : Bool) (trace : List Event)
    (d : Int) (flag : Bool)
    (h : install_all std stp stv asdeps = some trace)
    (hmem : Event.install d flag ∈ trace) :
    flag = (asdeps || decide (0 < d))
    ∧ (asdeps = false → d = 0 → flag = false) := by
  obtain ⟨plan, t, -, -, hte⟩ := install_all_mem std stp stv asdeps trace _ h hmem
  rw [tierEvents, List.mem_append, List.mem_append] at hte
  rcases hte with (hb | ha) | hi
  · rcases List.mem_map.1 hb with ⟨p, -, hpe⟩
    cases hpe
  · rcases List.mem_map.1 ha with ⟨p, -, hpe⟩
    cases hpe
  · have hpe := List.mem_singleton.1 hi
    injection hpe with h1 h2
    constructor
    · rw [h2, h1]
    · intro ha0 hd0
      rw [h2, ha0, ← h1, hd0]
      decide

/-- Witness for C9 at the concrete two-tier input: the depth-0 install of
`foo` is not marked as a dependency install. -/
theorem C9_witness :
    false = (false || decide ((0 : Int) < 0))
    ∧ (false = false → (0 : Int) = 0 → false = false) :=
  C9_dependency_flag [("libbar", 1), ("foo", 0)]
    [("libbar", "libbar"), ("foo", "foo")] [("libbar", "2"), ("foo", "1")] false
    [Event.build ("libbar") 1,
      Event.audit ("libbar") 1 [("libbar-2"), ("foo-1")],
      Event.install 1 true,
      Event.build ("foo") 0,
      Event.audit ("foo") 0 [("libbar-2"), ("foo-1")],
      Event.install 0 false]
    0 false
    (by
      rw [install_all_eval [("libbar", 1), ("foo", 0)] [("libbar", "libbar"), ("foo", "foo")]
        [("libbar", "2"), ("foo", "1")] false
        [(("libbar"), (1 : Int), ("libbar")), (("foo"), (0 : Int), ("foo"))]
        (by decide) (by decide)]
      decide)
    (by decide)

end Rua
